import Mathlib

/-!
# Verification of the Streamlit quantum-circuit simulator (`src/app.py`)

Shallow embedding of the program: the gate-matrix library `GATE_MATRICES`,
the Streamlit session-state machine (qubit slider, reset button, gate
palette, `place_gate`), and the statevector execution engine.  The engine
itself is delegated by the program to an external library (qiskit), so the
execution semantics is modelled from the specification (marked
`Modelled from the spec:` below); everything else is translated directly
from `src/app.py`.

Amplitudes: every matrix entry that appears in `GATE_MATRICES` (0, ±1, ±i,
1/√2, e^{iπ/4} = (1+i)/√2) lies in the subfield ℚ(√2, i) of ℂ, and that
subfield is closed under all of the engine's arithmetic.  We therefore
compute with the exact, decidable representation `Cx` of ℚ(√2, i) (a
quadruple of rationals), and interpret it into ℂ with the ring morphism
`toC` when a claim speaks about the complex numbers of the spec
(`Real.sqrt 2`, `Complex.exp`, numerical tolerances).
-/

/-- An element `(a + b·√2) + (c + d·√2)·i` of the subfield ℚ(√2, i) of ℂ:
the exact scalar type in which all of the program's gate-matrix entries and
all amplitudes reachable from them live.  `toC` interprets it in ℂ. -/
@[ext]
structure Cx where
  a : ℚ
  b : ℚ
  c : ℚ
  d : ℚ
  deriving DecidableEq

instance : Zero Cx := ⟨⟨0, 0, 0, 0⟩⟩

instance : One Cx := ⟨⟨1, 0, 0, 0⟩⟩

instance : Add Cx := ⟨fun x y => ⟨x.a + y.a, x.b + y.b, x.c + y.c, x.d + y.d⟩⟩

instance : Neg Cx := ⟨fun x => ⟨-x.a, -x.b, -x.c, -x.d⟩⟩

/-- Multiplication in ℚ(√2, i): `(r + s·i)(r' + s'·i) = (rr' - ss') + (rs' + sr')·i`
with `(a + b·√2)(a' + b'·√2) = (aa' + 2bb') + (ab' + ba')·√2`. -/
instance : Mul Cx :=
  ⟨fun x y =>
    ⟨x.a * y.a + 2 * x.b * y.b - x.c * y.c - 2 * x.d * y.d,
     x.a * y.b + x.b * y.a - x.c * y.d - x.d * y.c,
     x.a * y.c + 2 * x.b * y.d + x.c * y.a + 2 * x.d * y.b,
     x.a * y.d + x.b * y.c + x.c * y.b + x.d * y.a⟩⟩

@[simp] theorem Cx.zero_a : (0 : Cx).a = 0 := rfl

@[simp] theorem Cx.zero_b : (0 : Cx).b = 0 := rfl

@[simp] theorem Cx.zero_c : (0 : Cx).c = 0 := rfl

@[simp] theorem Cx.zero_d : (0 : Cx).d = 0 := rfl

@[simp] theorem Cx.one_a : (1 : Cx).a = 1 := rfl

@[simp] theorem Cx.one_b : (1 : Cx).b = 0 := rfl

@[simp] theorem Cx.one_c : (1 : Cx).c = 0 := rfl

@[simp] theorem Cx.one_d : (1 : Cx).d = 0 := rfl

@[simp] theorem Cx.add_a (x y : Cx) : (x + y).a = x.a + y.a := rfl

@[simp] theorem Cx.add_b (x y : Cx) : (x + y).b = x.b + y.b := rfl

@[simp] theorem Cx.add_c (x y : Cx) : (x + y).c = x.c + y.c := rfl

@[simp] theorem Cx.add_d (x y : Cx) : (x + y).d = x.d + y.d := rfl

@[simp] theorem Cx.neg_a (x : Cx) : (-x).a = -x.a := rfl

@[simp] theorem Cx.neg_b (x : Cx) : (-x).b = -x.b := rfl

@[simp] theorem Cx.neg_c (x : Cx) : (-x).c = -x.c := rfl

@[simp] theorem Cx.neg_d (x : Cx) : (-x).d = -x.d := rfl

@[simp] theorem Cx.mul_a (x y : Cx) :
    (x * y).a = x.a * y.a + 2 * x.b * y.b - x.c * y.c - 2 * x.d * y.d := rfl

@[simp] theorem Cx.mul_b (x y : Cx) :
    (x * y).b = x.a * y.b + x.b * y.a - x.c * y.d - x.d * y.c := rfl

@[simp] theorem Cx.mul_c (x y : Cx) :
    (x * y).c = x.a * y.c + 2 * x.b * y.d + x.c * y.a + 2 * x.d * y.b := rfl

@[simp] theorem Cx.mul_d (x y : Cx) :
    (x * y).d = x.a * y.d + x.b * y.c + x.c * y.b + x.d * y.a := rfl

instance : CommRing Cx where
  add_assoc x y z := by ext <;> simp <;> ring
  zero_add x := by ext <;> simp
  add_zero x := by ext <;> simp
  add_comm x y := by ext <;> simp <;> ring
  left_distrib x y z := by ext <;> simp <;> ring
  right_distrib x y z := by ext <;> simp <;> ring
  zero_mul x := by ext <;> simp
  mul_zero x := by ext <;> simp
  mul_assoc x y z := by ext <;> simp <;> ring
  one_mul x := by ext <;> simp
  mul_one x := by ext <;> simp
  mul_comm x y := by ext <;> simp <;> ring
  neg_add_cancel x := by ext <;> simp
  nsmul := nsmulRec
  zsmul := zsmulRec

/-- Complex conjugation on ℚ(√2, i): negate the imaginary component. -/
instance : StarRing Cx where
  star x := ⟨x.a, x.b, -x.c, -x.d⟩
  star_involutive x := by ext <;> simp [star]
  star_mul x y := by ext <;> simp [star] <;> ring
  star_add x y := by ext <;> simp [star] <;> ring

@[simp] theorem Cx.star_a (x : Cx) : (star x).a = x.a := rfl

@[simp] theorem Cx.star_b (x : Cx) : (star x).b = x.b := rfl

@[simp] theorem Cx.star_c (x : Cx) : (star x).c = -x.c := rfl

@[simp] theorem Cx.star_d (x : Cx) : (star x).d = -x.d := rfl

/-- The imaginary unit `i` (numpy's `1j`). -/
def Cx.iu : Cx := ⟨0, 0, 1, 0⟩

/-- `1/√2 = √2/2`, the scalar `1/np.sqrt(2)` of the Hadamard entry. -/
def Cx.invSqrt2 : Cx := ⟨0, 1/2, 0, 0⟩

/-- `e^{iπ/4} = (1 + i)/√2 = √2/2 + (√2/2)·i`, the value of
`np.exp(1j * np.pi / 4)` in the T-gate entry. -/
def Cx.expIPiDiv4 : Cx := ⟨0, 1/2, 0, 1/2⟩

/-- Interpretation of `Cx` in ℂ: `⟨a,b,c,d⟩ ↦ (a + b√2) + (c + d√2)·i`.
A ring morphism; spec-side only (the program's own data stays in `Cx`). -/
noncomputable def toC : Cx →+* ℂ where
  toFun x := ((x.a + x.b * Real.sqrt 2 : ℝ) : ℂ) +
    ((x.c + x.d * Real.sqrt 2 : ℝ) : ℂ) * Complex.I
  map_one' := by push_cast; simp
  map_mul' x y := by
    have hs : ((Real.sqrt 2 : ℝ) : ℂ) * ((Real.sqrt 2 : ℝ) : ℂ) = 2 := by
      rw [← Complex.ofReal_mul, Real.mul_self_sqrt (by norm_num)]
      norm_num
    have hI : Complex.I * Complex.I = -1 := Complex.I_mul_I
    show ((((x * y).a : ℚ) + ((x * y).b : ℚ) * Real.sqrt 2 : ℝ) : ℂ) +
        ((((x * y).c : ℚ) + ((x * y).d : ℚ) * Real.sqrt 2 : ℝ) : ℂ) * Complex.I = _
    simp only [Cx.mul_a, Cx.mul_b, Cx.mul_c, Cx.mul_d]
    push_cast
    linear_combination
      (-((x.b : ℂ) * (y.b : ℂ) + (x.d : ℂ) * (y.d : ℂ) * Complex.I * Complex.I +
        ((x.b : ℂ) * (y.d : ℂ) + (x.d : ℂ) * (y.b : ℂ)) * Complex.I)) * hs +
      (-(((x.c : ℂ) + (x.d : ℂ) * ((Real.sqrt 2 : ℝ) : ℂ)) *
        (((y.c : ℂ)) + (y.d : ℂ) * ((Real.sqrt 2 : ℝ) : ℂ)))) * hI +
      ((x.d : ℂ) * (y.d : ℂ) *
        (((Real.sqrt 2 : ℝ) : ℂ) * ((Real.sqrt 2 : ℝ) : ℂ) - 2)) * hI
  map_zero' := by push_cast; simp
  map_add' x y := by
    show ((((x + y).a : ℚ) + ((x + y).b : ℚ) * Real.sqrt 2 : ℝ) : ℂ) +
        ((((x + y).c : ℚ) + ((x + y).d : ℚ) * Real.sqrt 2 : ℝ) : ℂ) * Complex.I = _
    simp only [Cx.add_a, Cx.add_b, Cx.add_c, Cx.add_d]
    push_cast
    ring

theorem toC_apply (x : Cx) :
    toC x = ((x.a + x.b * Real.sqrt 2 : ℝ) : ℂ) +
      ((x.c + x.d * Real.sqrt 2 : ℝ) : ℂ) * Complex.I := rfl

/-- `toC` commutes with conjugation. -/
theorem toC_star (x : Cx) : toC (star x) = (starRingEnd ℂ) (toC x) := by
  simp only [toC_apply, Cx.star_a, Cx.star_b, Cx.star_c, Cx.star_d, map_add,
    map_mul, Complex.conj_ofReal, Complex.conj_I]
  push_cast
  ring

@[simp] theorem toC_iu : toC Cx.iu = Complex.I := by
  simp [toC_apply, Cx.iu]

@[simp] theorem toC_invSqrt2 : toC Cx.invSqrt2 = (((Real.sqrt 2 : ℝ) : ℂ))⁻¹ := by
  have hs : ((Real.sqrt 2 : ℝ) : ℂ) * ((Real.sqrt 2 : ℝ) : ℂ) = 2 := by
    rw [← Complex.ofReal_mul, Real.mul_self_sqrt (by norm_num)]
    norm_num
  rw [eq_comm]
  refine inv_eq_of_mul_eq_one_right ?_
  rw [toC_apply]
  push_cast [Cx.invSqrt2]
  linear_combination (1 / 2 : ℂ) * hs

@[simp] theorem toC_expIPiDiv4 :
    toC Cx.expIPiDiv4 = Complex.exp (Complex.I * (Real.pi : ℂ) / 4) := by
  have h : Complex.I * (Real.pi : ℂ) / 4 = ((Real.pi / 4 : ℝ) : ℂ) * Complex.I := by
    push_cast
    ring
  rw [h, Complex.exp_mul_I, toC_apply, ← Complex.ofReal_cos, ← Complex.ofReal_sin,
    Real.cos_pi_div_four, Real.sin_pi_div_four]
  push_cast [Cx.expIPiDiv4]
  ring

/-- The gate kinds enumerated as keys of the `GATE_MATRICES` dictionary in
`src/app.py` (lines 9-18): `X, Y, Z, H, S, T, I, CNOT`. -/
inductive GateKind : Type
  | X | Y | Z | H | S | T | I | CNOT
  deriving DecidableEq

/-- One entry of the `GATE_MATRICES` dictionary of `src/app.py`: display
name, symbol, the 2x2 matrix (`none` for the CNOT entry, whose `matrix`
field is `None` in the source), and the `is_multi_qubit` flag (keys without
the flag default to `false`). -/
structure GateInfo where
  name : String
  symbol : String
  matrix : Option (Matrix (Fin 2) (Fin 2) Cx)
  is_multi_qubit : Bool := false

/-- `GATE_MATRICES` from `src/app.py` lines 9-18, entry by entry:
`X = [[0,1],[1,0]]`, `Y = [[0,-1j],[1j,0]]`, `Z = [[1,0],[0,-1]]`,
`H = [[1,1],[1,-1]]/sqrt(2)`, `S = [[1,0],[0,1j]]`,
`T = [[1,0],[0,exp(1j*pi/4)]]`, `I = [[1,0],[0,1]]`, and the CNOT entry
with `matrix = None` and `is_multi_qubit = True`.  The numeric constants
`1/sqrt(2)` and `exp(1j*pi/4)` are the exact elements `Cx.invSqrt2` and
`Cx.expIPiDiv4` of ℚ(√2, i); `toC_invSqrt2` and `toC_expIPiDiv4` prove
they interpret in ℂ to `(√2)⁻¹` and `exp(i·π/4)`. -/
def GATE_MATRICES : GateKind → GateInfo
  | .X => ⟨"Pauli-X", "X", some !![0, 1; 1, 0], false⟩
  | .Y => ⟨"Pauli-Y", "Y", some !![0, -Cx.iu; Cx.iu, 0], false⟩
  | .Z => ⟨"Pauli-Z", "Z", some !![1, 0; 0, -1], false⟩
  | .H => ⟨"Hadamard", "H", some (Cx.invSqrt2 • !![1, 1; 1, -1]), false⟩
  | .S => ⟨"S Gate", "S", some !![1, 0; 0, Cx.iu], false⟩
  | .T => ⟨"T Gate", "T", some !![1, 0; 0, Cx.expIPiDiv4], false⟩
  | .I => ⟨"Identity", "I", some !![1, 0; 0, 1], false⟩
  | .CNOT => ⟨"CNOT", "CNOT", none, true⟩

/-- The single-qubit matrices exactly as written in the specification
(§4.1, "Matrices (exact, up to global phase)"):
`I = [[1,0],[0,1]]; X = [[0,1],[1,0]]; Y = [[0,-i],[i,0]];
Z = [[1,0],[0,-1]]; H = (1/√2)[[1,1],[1,-1]]; S = [[1,0],[0,i]];
T = [[1,0],[0, e^{iπ/4}]]`, over ℂ itself.  `none` for CNOT, which the
spec gives by a permutation rule instead of a fixed 2x2 matrix. -/
noncomputable def specSingleQubitMatrix : GateKind → Option (Matrix (Fin 2) (Fin 2) ℂ)
  | .I => some !![1, 0; 0, 1]
  | .X => some !![0, 1; 1, 0]
  | .Y => some !![0, -Complex.I; Complex.I, 0]
  | .Z => some !![1, 0; 0, -1]
  | .H => some (((1 : ℂ) / (Real.sqrt 2 : ℝ)) • !![1, 1; 1, -1])
  | .S => some !![1, 0; 0, Complex.I]
  | .T => some !![1, 0; 0, Complex.exp (Complex.I * (Real.pi : ℂ) / 4)]
  | .CNOT => none

/-- C1: For every gate kind, the matrix stored for it in `GATE_MATRICES`,
read in ℂ through the interpretation `toC`, equals the specification's
exact matrix entry by entry (hence in particular up to global phase): for
the single-qubit kinds I, X, Y, Z, H, S, T both sides are `some` of the
same 2x2 complex matrix, and for CNOT both are `none`. -/
theorem gate_matrices_match_spec :
    ∀ k : GateKind,
      Option.map (fun M => M.map toC) (GATE_MATRICES k).matrix =
        specSingleQubitMatrix k := by
  intro k
  cases k <;>
    simp only [GATE_MATRICES, specSingleQubitMatrix, Option.map_some', Option.map_none',
      Option.some.injEq] <;>
    first
      | rfl
      | (ext i j
         fin_cases i <;> fin_cases j <;>
           simp [Matrix.map_apply, Matrix.smul_apply, smul_eq_mul, one_div, map_neg])

/-- Modelled from the spec: the StateVector of §3 — the simulation itself is
delegated by `src/app.py` to the external qiskit library (`Aer`
`statevector_simulator`, lines 85-89), so the state representation follows
the spec.  A state over `n` qubits assigns an amplitude to every
computational basis state; a basis state is a bit assignment
`Fin n → Bool`, and the basis index of an assignment `f` has bit `i` equal
to `f i` (qubit 0 = least-significant bit, the convention pinned by the
spec's §8 test and used by the delegated library). -/
def QState (n : ℕ) : Type := (Fin n → Bool) → Cx

/-- Modelled from the spec: §4.3 step 1 — the all-zero basis state
`|0...0⟩`, amplitude 1 at index 0 and 0 elsewhere. -/
def initState (n : ℕ) : QState n :=
  fun f => if f = fun _ => false then 1 else 0

/-- The row/column of a 2x2 gate matrix addressed by a qubit's bit value. -/
def bitIdx (b : Bool) : Fin 2 := if b then 1 else 0

/-- Modelled from the spec: §4.3 step 2b — apply a single-qubit gate `U` at
qubit `q` "directly to the vector via index arithmetic that touches only
the 2 amplitude pairs affected by the target qubit": the new amplitude at
basis state `f` combines the two old amplitudes that agree with `f` away
from `q`, weighted by the row of `U` selected by `f q`. -/
def apply1 {n : ℕ} (U : Matrix (Fin 2) (Fin 2) Cx) (q : Fin n) (v : QState n) :
    QState n :=
  fun f =>
    U (bitIdx (f q)) 0 * v (Function.update f q false) +
      U (bitIdx (f q)) 1 * v (Function.update f q true)

/-- Modelled from the spec: §4.1 — "CNOT (control c, target t): permutation
matrix swapping basis states where bit c = 1, flipping bit t", as the
index-arithmetic state update of §4.3: the amplitude at `f` is taken from
`f` with the target bit flipped when the control bit is set. -/
def applyCNOT {n : ℕ} (c t : Fin n) (v : QState n) : QState n :=
  fun f => v (if f c then Function.update f t (!(f t)) else f)

/-- One entry of the program's `st.session_state.circuit_data` list: a dict
`{'type': gate_type, 'qubit': qubit, 'target': target}` (the `target` key
is only read for CNOT, lines 76-83 of `src/app.py`). -/
structure Placement where
  type : GateKind
  qubit : ℕ
  target : Option ℕ := none
  deriving DecidableEq

/-- The spec's validity invariant for a `GatePlacement` (§3): the primary
qubit index is in `[0, N)` and, for CNOT, a target index exists, is in
range and differs from the control. -/
def ValidPlacement (n : ℕ) (p : Placement) : Prop :=
  p.qubit < n ∧
    (p.type = GateKind.CNOT → ∃ t, p.target = some t ∧ t < n ∧ t ≠ p.qubit)

/-- Modelled from the spec: §4.3 step 2 — resolve one placement's matrix
via the gate library and apply it to the vector.  Mirrors the dispatch of
`src/app.py` lines 76-83: `CNOT` uses control `qubit` and `target`
(`qc.cx(qubit, target)`), every other kind applies its 2x2 matrix at
`qubit`.  Out-of-range placements (excluded by the spec's append-time
validation) leave the state unchanged. -/
def applyPlacement (n : ℕ) (v : QState n) (p : Placement) : QState n :=
  match p.type with
  | GateKind.CNOT =>
    match p.target with
    | some t =>
      if h : p.qubit < n ∧ t < n then applyCNOT ⟨p.qubit, h.1⟩ ⟨t, h.2⟩ v else v
    | none => v
  | k =>
    match (GATE_MATRICES k).matrix with
    | some U => if h : p.qubit < n then apply1 U ⟨p.qubit, h⟩ v else v
    | none => v

/-- Modelled from the spec: §4.3 `execute` — start from `|0...0⟩` and apply
the placements in sequence order; an empty circuit is a valid no-op
returning the initial state (the documented empty-circuit policy; the
program's own handler, lines 68-70, merely shows the UI-level "nothing to
execute" warning the spec assigns to the presentation shell). -/
def executeCircuit (n : ℕ) (ps : List Placement) : QState n :=
  ps.foldl (applyPlacement n) (initState n)

/-- The sum of squared magnitudes of a state's amplitudes, computed in the
exact scalar field: `|z|² = z·z̄`. -/
def normSqSum (n : ℕ) (v : QState n) : Cx :=
  ∑ f : Fin n → Bool, v f * star (v f)

/-- The bit assignment of basis index `k` (qubit `i` = bit `i` of `k`). -/
def basisFun (n : ℕ) (k : ℕ) : Fin n → Bool :=
  fun i => k.testBit i.val

/-- The spec's `allAmplitudes` listing (§4.4): the `2^n` amplitudes in
canonical basis order. -/
def amps (n : ℕ) (v : QState n) : List Cx :=
  (List.range (2 ^ n)).map (fun k => v (basisFun n k))

/-- The program's Streamlit session state (`src/app.py` lines 29-32, 51):
the qubit count, the circuit's placement list, and the gate selected in
the palette.  The gate library `GATE_MATRICES` is a top-level constant of
the module, outside the mutable session state. -/
structure AppState where
  num_qubits : ℕ
  circuit_data : List Placement
  selected_gate : Option GateKind := none
  deriving DecidableEq

/-- The initial session state (`src/app.py` lines 29-32): 2 qubits, empty
circuit, nothing selected. -/
def initialState : AppState := ⟨2, [], none⟩

/-- The value produced by the qubit-count slider
`st.sidebar.slider('Number of Qubits', 1, 8, ...)` (lines 36-38): the
widget only ever yields a value within its bounds, so a requested
position is coerced into `[lo, hi]`. -/
def sliderValue (lo hi v : ℕ) : ℕ := max lo (min hi v)

/-- `place_gate(qubit, time, gate_type)` from `src/app.py` lines 104-106:
its body is `pass`, so it returns the session state unchanged. -/
def place_gate (s : AppState) (qubit time : ℕ) (gate_type : GateKind) : AppState :=
  s

/-- The `Reset Circuit` button handler (lines 40-42):
`st.session_state.circuit_data = []`. -/
def resetCircuit (s : AppState) : AppState := { s with circuit_data := [] }

/-- The interactions the program defines on its session state: moving the
qubit slider (lines 36-38), the reset button (40-42), selecting a gate in
the palette (50-51), calling `place_gate` (104-106), and the execute
button (68-97), which computes and displays results without mutating the
session state. -/
inductive Op : Type
  | slider (v : ℕ)
  | reset
  | selectGate (g : GateKind)
  | placeGate (qubit time : ℕ) (g : GateKind)
  | execute

/-- One interaction's effect on the session state, read off `src/app.py`. -/
def applyOp (s : AppState) : Op → AppState
  | .slider v => { s with num_qubits := sliderValue 1 8 v }
  | .reset => resetCircuit s
  | .selectGate g => { s with selected_gate := some g }
  | .placeGate q t g => place_gate s q t g
  | .execute => s

/-- A session: the interactions applied in order from the initial state. -/
def applyOps (s : AppState) (ops : List Op) : AppState := ops.foldl applyOp s

/-- Permutation rule of the spec for CNOT, specialised to one 2x2 pair of
amplitudes: a 2x2 matrix `U` with `Uᴴ·U = 1` preserves the squared
magnitude of each amplitude pair it touches. -/
theorem unitary_pair (U : Matrix (Fin 2) (Fin 2) Cx)
    (hU : U.conjTranspose * U = 1) (x y : Cx) :
    (U 0 0 * x + U 0 1 * y) * star (U 0 0 * x + U 0 1 * y) +
      (U 1 0 * x + U 1 1 * y) * star (U 1 0 * x + U 1 1 * y) =
        x * star x + y * star y := by
  have h00 := congrFun (congrFun hU 0) 0
  have h01 := congrFun (congrFun hU 0) 1
  have h11 := congrFun (congrFun hU 1) 1
  simp only [Matrix.mul_apply, Matrix.conjTranspose_apply,
    Fin.sum_univ_two] at h00 h01 h11
  rw [Matrix.one_apply_eq] at h00
  rw [Matrix.one_apply_eq] at h11
  rw [Matrix.one_apply_ne (by decide : (0 : Fin 2) ≠ 1)] at h01
  have h01c := congrArg star h01
  simp only [star_add, star_mul, star_star, star_zero] at h01c
  simp only [star_add, star_mul]
  linear_combination (x * star x) * h00 + (y * star y) * h11 +
    (y * star x) * h01 + (x * star y) * h01c

theorem funSplitAt_symm_self {n : ℕ} (q : Fin n) (b : Bool)
    (g : { j // j ≠ q } → Bool) :
    (Equiv.funSplitAt q Bool).symm (b, g) q = b := by
  simp [Equiv.funSplitAt_symm_apply]

theorem funSplitAt_symm_update {n : ℕ} (q : Fin n) (b c : Bool)
    (g : { j // j ≠ q } → Bool) :
    Function.update ((Equiv.funSplitAt q Bool).symm (b, g)) q c =
      (Equiv.funSplitAt q Bool).symm (c, g) := by
  funext j
  by_cases h : j = q
  · subst h
    simp [Equiv.funSplitAt_symm_apply]
  · simp [Function.update_noteq h, Equiv.funSplitAt_symm_apply, h]

/-- Applying a 2x2 matrix with `Uᴴ·U = 1` at any qubit preserves the sum of
squared magnitudes (the per-gate normalization invariant of spec §3/§4.3). -/
theorem normSqSum_apply1 {n : ℕ} (U : Matrix (Fin 2) (Fin 2) Cx)
    (hU : U.conjTranspose * U = 1) (q : Fin n) (v : QState n) :
    normSqSum n (apply1 U q v) = normSqSum n v := by
  classical
  have hL : ∀ w : QState n,
      normSqSum n w =
        ∑ p : Bool × ({ j // j ≠ q } → Bool),
          w ((Equiv.funSplitAt q Bool).symm p) *
            star (w ((Equiv.funSplitAt q Bool).symm p)) := by
    intro w
    exact (Equiv.sum_comp (Equiv.funSplitAt q Bool).symm
      fun f => w f * star (w f)).symm
  rw [hL, hL, Fintype.sum_prod_type, Fintype.sum_prod_type, Finset.sum_comm]
  nth_rewrite 2 [Finset.sum_comm]
  refine Finset.sum_congr rfl fun g _ => ?_
  rw [Fintype.sum_bool, Fintype.sum_bool]
  simp only [apply1, funSplitAt_symm_self, funSplitAt_symm_update, bitIdx,
    Bool.false_eq_true, if_true, if_false, reduceIte]
  linear_combination
    unitary_pair U hU ((Equiv.funSplitAt q Bool).symm (false, g) |> v)
      ((Equiv.funSplitAt q Bool).symm (true, g) |> v)

/-- The CNOT index update is an involution on basis states when
control ≠ target. -/
theorem cnot_involutive {n : ℕ} (c t : Fin n) (hct : c ≠ t) :
    Function.Involutive
      (fun f : Fin n → Bool =>
        if f c then Function.update f t (!(f t)) else f) := by
  intro f
  by_cases h : f c
  · have hc : Function.update f t (!(f t)) c = f c :=
      Function.update_noteq hct _ _
    simp only [h, if_true, hc, Function.update_same, Function.update_idem,
      Bool.not_not, Function.update_eq_self]
  · simp only [h, Bool.false_eq_true, if_false, reduceIte]

/-- Applying CNOT (control ≠ target) preserves the sum of squared
magnitudes: it only permutes amplitudes. -/
theorem normSqSum_applyCNOT {n : ℕ} (c t : Fin n) (hct : c ≠ t)
    (v : QState n) : normSqSum n (applyCNOT c t v) = normSqSum n v := by
  classical
  exact Equiv.sum_comp ((cnot_involutive c t hct).toPerm _)
    fun f => v f * star (v f)

/-- Every 2x2 matrix stored in `GATE_MATRICES` satisfies `Uᴴ·U = 1`
(exactly, in ℚ(√2, i)). -/
theorem gate_unitary_left :
    ∀ (k : GateKind) (U : Matrix (Fin 2) (Fin 2) Cx),
      (GATE_MATRICES k).matrix = some U → U.conjTranspose * U = 1 := by
  intro k U h
  cases k <;> simp only [GATE_MATRICES, Option.some.injEq,
    reduceCtorEq] at h <;> subst h <;> with_unfolding_all decide

/-- Every 2x2 matrix stored in `GATE_MATRICES` satisfies `U·Uᴴ = 1`
(exactly, in ℚ(√2, i)). -/
theorem gate_unitary_right :
    ∀ (k : GateKind) (U : Matrix (Fin 2) (Fin 2) Cx),
      (GATE_MATRICES k).matrix = some U → U * U.conjTranspose = 1 := by
  intro k U h
  cases k <;> simp only [GATE_MATRICES, Option.some.injEq,
    reduceCtorEq] at h <;> subst h <;> with_unfolding_all decide

/-- One valid placement preserves the sum of squared magnitudes. -/
theorem normSqSum_applyPlacement {n : ℕ} (p : Placement)
    (hp : ValidPlacement n p) (v : QState n) :
    normSqSum n (applyPlacement n v p) = normSqSum n v := by
  obtain ⟨k, q, tar⟩ := p
  obtain ⟨hq, hcnot⟩ := hp
  cases k <;>
    first
      | -- the seven single-qubit kinds: resolve the concrete matrix
        (dsimp only [applyPlacement, GATE_MATRICES]
         rw [dif_pos hq]
         exact normSqSum_apply1 _ (by with_unfolding_all decide) _ v)
      | -- CNOT
        (obtain ⟨t, htar, htn, htq⟩ := hcnot rfl
         dsimp only at htar htq hq
         subst htar
         dsimp only [applyPlacement]
         rw [dif_pos ⟨hq, htn⟩]
         exact normSqSum_applyCNOT _ _ (Fin.ne_of_val_ne (Ne.symm htq)) v)

/-- The initial state `|0...0⟩` is normalized. -/
theorem normSqSum_initState (n : ℕ) : normSqSum n (initState n) = 1 := by
  classical
  rw [normSqSum]
  have h : ∀ f : Fin n → Bool,
      initState n f * star (initState n f) =
        if f = (fun _ => false) then 1 else 0 := by
    intro f
    by_cases h : f = fun _ => false <;> simp [initState, h]
  rw [Finset.sum_congr rfl fun f _ => h f]
  simp [Finset.sum_ite_eq']

/-- Folding any list of valid placements over a state preserves the sum of
squared magnitudes. -/
theorem normSqSum_foldl {n : ℕ} :
    ∀ (ps : List Placement) (v : QState n),
      (∀ p ∈ ps, ValidPlacement n p) →
      normSqSum n (ps.foldl (applyPlacement n) v) = normSqSum n v := by
  intro ps
  induction ps with
  | nil => intro v _; rfl
  | cons p ps ih =>
    intro v hv
    rw [List.foldl_cons,
      ih _ fun r hr => hv r (List.mem_cons_of_mem _ hr),
      normSqSum_applyPlacement p (hv p (List.mem_cons_self _ _)) v]

/-- C2: For every qubit count `n` and every list of valid gate placements,
the state reached by executing any prefix of the circuit from `|0...0⟩` —
in particular the returned final state, and the state after every
individual gate application — has squared-magnitude sum exactly 1 in
ℚ(√2, i), hence within `1e-9` of 1 as a real number. -/
theorem executeCircuit_normalized (n : ℕ) (ps ps₁ ps₂ : List Placement)
    (hv : ∀ p ∈ ps, ValidPlacement n p) (hsplit : ps = ps₁ ++ ps₂) :
    normSqSum n (executeCircuit n ps₁) = 1 ∧
      |(∑ f : Fin n → Bool,
          Complex.normSq (toC (executeCircuit n ps₁ f))) - 1| ≤ 1e-9 := by
  have hv₁ : ∀ p ∈ ps₁, ValidPlacement n p := fun p hp =>
    hv p (hsplit ▸ List.mem_append_left ps₂ hp)
  have hexact : normSqSum n (executeCircuit n ps₁) = 1 := by
    rw [executeCircuit, normSqSum_foldl ps₁ (initState n) hv₁,
      normSqSum_initState]
  refine ⟨hexact, ?_⟩
  have hC : ((∑ f : Fin n → Bool,
      Complex.normSq (toC (executeCircuit n ps₁ f)) : ℝ) : ℂ) = 1 := by
    push_cast
    calc
      ∑ f : Fin n → Bool,
          (Complex.normSq (toC (executeCircuit n ps₁ f)) : ℂ)
        = ∑ f : Fin n → Bool,
            toC (executeCircuit n ps₁ f * star (executeCircuit n ps₁ f)) := by
          refine Finset.sum_congr rfl fun f _ => ?_
          rw [map_mul, toC_star, Complex.mul_conj]
      _ = toC (normSqSum n (executeCircuit n ps₁)) := (map_sum toC _ _).symm
      _ = 1 := by rw [hexact, map_one]
  have hR : (∑ f : Fin n → Bool,
      Complex.normSq (toC (executeCircuit n ps₁ f))) = 1 := by
    exact_mod_cast hC
  rw [hR]
  norm_num

/-- Witness for C2: the one-gate circuit `[X on qubit 0]` over one qubit is
valid, and the executed state is normalized. -/
theorem executeCircuit_normalized_witness :
    normSqSum 1 (executeCircuit 1 [⟨GateKind.X, 0, none⟩]) = 1 ∧
      |(∑ f : Fin 1 → Bool,
          Complex.normSq (toC (executeCircuit 1 [⟨GateKind.X, 0, none⟩] f))) -
        1| ≤ 1e-9 :=
  executeCircuit_normalized 1 [⟨GateKind.X, 0, none⟩] [⟨GateKind.X, 0, none⟩]
    []
    (by
      intro p hp
      simp only [List.mem_singleton] at hp
      subst hp
      exact ⟨by norm_num, fun h => absurd h (by decide)⟩)
    (by simp)

/-- The canonical entanglement test circuit of spec §8: H on qubit 0, then
CNOT with control 0 and target 1, as `circuit_data` placements. -/
def bellCircuit : List Placement :=
  [⟨GateKind.H, 0, none⟩, ⟨GateKind.CNOT, 0, some 1⟩]

/-- C3: Executing `[H on qubit 0, CNOT control 0 target 1]` on 2 qubits
from `|00⟩` yields the Bell state `(1/√2, 0, 0, 1/√2)` in the fixed basis
order (qubit 0 = least-significant bit), each amplitude within `1e-9`
(in fact exactly). -/
theorem bell_circuit_amplitudes :
    ∀ k : Fin 4,
      Complex.abs
        (toC (executeCircuit 2 bellCircuit (basisFun 2 k.val)) -
          ![((Real.sqrt 2 : ℝ) : ℂ)⁻¹, 0, 0, ((Real.sqrt 2 : ℝ) : ℂ)⁻¹] k) ≤
        1e-9 := by
  have h0 : executeCircuit 2 bellCircuit (basisFun 2 0) = Cx.invSqrt2 := by
    with_unfolding_all decide
  have h1 : executeCircuit 2 bellCircuit (basisFun 2 1) = 0 := by
    with_unfolding_all decide
  have h2 : executeCircuit 2 bellCircuit (basisFun 2 2) = 0 := by
    with_unfolding_all decide
  have h3 : executeCircuit 2 bellCircuit (basisFun 2 3) = Cx.invSqrt2 := by
    with_unfolding_all decide
  intro k
  fin_cases k <;>
    simp [h0, h1, h2, h3, toC_invSqrt2, map_zero, sub_self] <;> norm_num

/-- C4: Executing the empty circuit on 3 qubits succeeds as a no-op: it
returns the all-zero basis state, whose amplitude listing has length
`8 = 2^3`, amplitude 1 at index 0 and 0 elsewhere. -/
theorem executeCircuit_empty_noop :
    executeCircuit 3 [] = initState 3 ∧
      (amps 3 (executeCircuit 3 [])).length = 8 ∧
      amps 3 (executeCircuit 3 []) = [1, 0, 0, 0, 0, 0, 0, 0] := by
  refine ⟨rfl, ?_, ?_⟩ <;> with_unfolding_all decide

/-- C5 (evaluation of the code at the failing input): the program's only
gate-placement function, `place_gate`, is a `pass` stub; called with
qubit index 5 on a 2-qubit session it raises no error (its type has no
error channel) and returns the state unchanged, instead of failing with
`InvalidQubitIndex` as the spec's append contract requires. -/
theorem place_gate_stub_no_error :
    place_gate ⟨2, [], none⟩ 5 0 GateKind.X = ⟨2, [], none⟩ := rfl

/-- C6: every 2x2 matrix `U` stored in `GATE_MATRICES` satisfies
`U·Uᴴ = 1` exactly, and applying `U` then `Uᴴ` to any normalized
single-qubit state returns the original state exactly (hence within any
`1e-9` amplitude tolerance). -/
theorem single_qubit_unitary_roundtrip :
    ∀ (k : GateKind) (U : Matrix (Fin 2) (Fin 2) Cx),
      (GATE_MATRICES k).matrix = some U →
      U * U.conjTranspose = 1 ∧
        ∀ v : Fin 2 → Cx,
          v 0 * star (v 0) + v 1 * star (v 1) = 1 →
          U.conjTranspose.mulVec (U.mulVec v) = v := by
  intro k U h
  refine ⟨gate_unitary_right k U h, fun v _ => ?_⟩
  rw [Matrix.mulVec_mulVec, gate_unitary_left k U h, Matrix.one_mulVec]

/-- Witness for C6: the Hadamard matrix and the normalized state `|0⟩`. -/
theorem single_qubit_unitary_roundtrip_witness :
    (Cx.invSqrt2 • !![1, 1; 1, -1] : Matrix (Fin 2) (Fin 2) Cx).conjTranspose.mulVec
        ((Cx.invSqrt2 • !![1, 1; 1, -1]).mulVec ![1, 0]) = ![1, 0] :=
  (single_qubit_unitary_roundtrip GateKind.H _ rfl).2 ![1, 0]
    (by with_unfolding_all decide)

/-- C7 (counterexample): requesting 21 qubits through the program's only
qubit-count control — the slider bounded to `[1, 8]` — neither fails nor
yields 21: the session continues with 8 qubits.  No `DimensionOverflow`
failure exists anywhere in the program (`applyOp` has no error channel),
and the execute handler performs no dimension check. -/
theorem slider_request_21_yields_8_without_error :
    applyOps initialState [Op.slider 21] =
        { num_qubits := 8, circuit_data := [], selected_gate := none } ∧
      (applyOps initialState [Op.slider 21]).num_qubits ≠ 21 := by
  constructor
  · rfl
  · decide

/-- C7 (amended): the program's configured maximum qubit count is the
slider bound 8; it is enforced by construction, not by a
`DimensionOverflow` error: in every reachable session state the qubit
count lies in `[1, 8]`, so an over-limit execution can never occur. -/
theorem num_qubits_always_in_slider_range :
    ∀ ops : List Op,
      1 ≤ (applyOps initialState ops).num_qubits ∧
        (applyOps initialState ops).num_qubits ≤ 8 := by
  have key : ∀ (ops : List Op) (s : AppState),
      1 ≤ s.num_qubits → s.num_qubits ≤ 8 →
      1 ≤ (applyOps s ops).num_qubits ∧ (applyOps s ops).num_qubits ≤ 8 := by
    intro ops
    induction ops with
    | nil => intro s h1 h8; exact ⟨h1, h8⟩
    | cons op ops ih =>
      intro s h1 h8
      cases op with
      | slider v =>
        refine ih _ ?_ ?_ <;> simp [applyOp, sliderValue]
      | reset => exact ih _ h1 h8
      | selectGate g => exact ih _ h1 h8
      | placeGate q t g => exact ih _ h1 h8
      | execute => exact ih _ h1 h8
  exact fun ops => key ops initialState (by norm_num [initialState])
    (by norm_num [initialState])

/-- Modelled from the spec: the bit position of the CNOT control qubit in
a 2-bit basis index, with the pinned convention that bit 0 is the
lower-indexed qubit (`controlIsLowerIndex` selects which of the two
qubits is the control). -/
def ctrlBitPos (controlIsLowerIndex : Bool) : ℕ :=
  if controlIsLowerIndex then 0 else 1

/-- Modelled from the spec: the bit position of the CNOT target qubit. -/
def tgtBitPos (controlIsLowerIndex : Bool) : ℕ :=
  if controlIsLowerIndex then 1 else 0

theorem xor_pow_lt_four (j : Fin 4) (t : ℕ) (ht : t ≤ 1) :
    j.val ^^^ 2 ^ t < 4 := by
  interval_cases t <;> (revert j; decide)

/-- Modelled from the spec: the permutation of 2-qubit basis states
described in §4.1 — "permutation matrix swapping basis states where bit c
= 1, flipping bit t": a basis index with control bit 0 is fixed, one with
control bit 1 gets its target bit flipped. -/
def cnotFlip (controlIsLowerIndex : Bool) (j : Fin 4) : Fin 4 :=
  if j.val.testBit (ctrlBitPos controlIsLowerIndex) then
    ⟨j.val ^^^ 2 ^ tgtBitPos controlIsLowerIndex,
      xor_pow_lt_four j _
        (by cases controlIsLowerIndex <;> simp [tgtBitPos])⟩
  else j

/-- Modelled from the spec: `cnotMatrix(controlIsLowerIndex) -> 4x4
complex matrix` of §4.1 — the permutation matrix of `cnotFlip`: column
`j` has a single 1, in row `cnotFlip j`. -/
def cnotMatrix (controlIsLowerIndex : Bool) : Matrix (Fin 4) (Fin 4) Cx :=
  Matrix.of fun i j => if i = cnotFlip controlIsLowerIndex j then 1 else 0

/-- C8: for each control/target ordering, resolving CNOT yields a fixed
4x4 matrix that is a permutation unitary: `Mᴴ·M = M·Mᴴ = 1`, it maps the
basis vector of index `j` to the basis vector of index `cnotFlip j`,
fixes every basis state whose control bit is 0, and on basis states with
control bit 1 flips the target bit — an involution, so those states are
swapped in pairs. -/
theorem cnotMatrix_permutation_unitary :
    ∀ cl : Bool,
      ((cnotMatrix cl).conjTranspose * cnotMatrix cl = 1 ∧
        cnotMatrix cl * (cnotMatrix cl).conjTranspose = 1) ∧
      ∀ j : Fin 4,
        (cnotMatrix cl).mulVec (Pi.single j 1) =
            Pi.single (cnotFlip cl j) 1 ∧
          (j.val.testBit (ctrlBitPos cl) = false → cnotFlip cl j = j) ∧
          (j.val.testBit (ctrlBitPos cl) = true →
            (cnotFlip cl j).val = j.val ^^^ 2 ^ tgtBitPos cl ∧
              cnotFlip cl (cnotFlip cl j) = j) := by
  intro cl
  cases cl <;> with_unfolding_all decide

/-- Witness for C8: with the control on the lower-indexed qubit, basis
state 0 (control bit 0) is fixed, and basis state 1 (control bit 1) is
swapped with its target-flipped partner. -/
theorem cnotMatrix_permutation_unitary_witness :
    cnotFlip true 0 = 0 ∧ cnotFlip true (cnotFlip true 1) = 1 :=
  ⟨((cnotMatrix_permutation_unitary true).2 0).2.1 (by decide),
    (((cnotMatrix_permutation_unitary true).2 1).2.2 (by decide)).2⟩

/-- C9: the program's only gate-placement function `place_gate` is a
no-op — it returns every session state unchanged — and consequently no
sequence of the program's interactions ever adds a placement to
`circuit_data`: starting from the initial state it is always `[]`; the
circuit can only remain empty or be cleared. -/
theorem place_gate_noop_circuit_stays_empty :
    (∀ (s : AppState) (qubit time : ℕ) (g : GateKind),
        place_gate s qubit time g = s) ∧
      ∀ ops : List Op, (applyOps initialState ops).circuit_data = [] := by
  refine ⟨fun s q t g => rfl, ?_⟩
  have key : ∀ (ops : List Op) (s : AppState), s.circuit_data = [] →
      (applyOps s ops).circuit_data = [] := by
    intro ops
    induction ops with
    | nil => intro s h; exact h
    | cons op ops ih =>
      intro s h
      refine ih (applyOp s op) ?_
      cases op <;> simp [applyOp, resetCircuit, place_gate, h]
  exact fun ops => key ops initialState rfl

/-- C10: the reset handler sets `circuit_data` to `[]` and changes
nothing else of the session state: the qubit count and the palette
selection are untouched (and the gate library `GATE_MATRICES` is a
top-level constant outside the session state, so reset cannot affect
it). -/
theorem resetCircuit_clears_only_circuit :
    ∀ s : AppState,
      resetCircuit s = { s with circuit_data := [] } ∧
        (resetCircuit s).circuit_data = [] ∧
        (resetCircuit s).num_qubits = s.num_qubits ∧
        (resetCircuit s).selected_gate = s.selected_gate :=
  fun s => ⟨rfl, rfl, rfl, rfl⟩
